import Mathlib

/-!
Verification of the go-sse repository core: the SSE message model and wire
codec, the replay providers (`Noop`, `Finite`, `Valid`) and their buffer
primitive, and the broker ("Joe") state operations and event-loop tables.

The codec implementation (the `Message` type with `AppendData`, `Comment`,
`WriteTo`, `UnmarshalText`) is not among the provided source files; only its
tests are. Those definitions are modelled from the spec, with the observable
behaviour pinned down by the tests `TestNew`, `TestEvent_WriteTo` and
`TestEvent_UnmarshalText`. The replay providers and the broker are translated
directly from the `replay` package source and `joe.go` (package `server`);
their buffer primitive (`queue`, `dequeue`, `front`, `slice`) is modelled
from the spec.

Conventions: instants (`time.Time`) are naturals, `t1.Before(t2)` is `t1 < t2`
and `t1.After(t2)` is `t2 < t1`; `Retry` durations are naturals counting
milliseconds (the wire unit); byte strings are Lean `String`s (`\x00` is the
NUL byte). Recursions over input bytes take a fuel argument equal to the
input length so that all definitions evaluate by kernel reduction; lemmas
below show the results do not depend on the fuel once it is large enough.
-/

/-- A single already-split line of a message payload: a `data:` line when
`isComment` is false, a `:` comment line otherwise. Mirrors `chunk` from the
message model (`TestNew` shows its `content` and `isComment` fields). -/
structure SSEChunk where
  content : String
  isComment : Bool
deriving DecidableEq, Repr

/-- Modelled from the spec: the SSE `Message` with the fields the codec
serializes: `ID`, `Type` (called `etype` here), `Retry` in milliseconds
(zero meaning absent) and the ordered chunk list. `ExpiresAt` and `Topic`
are not serialized and are omitted from the codec model. -/
structure SSEMessage where
  id : String
  etype : String
  retry : Nat
  chunks : List SSEChunk
deriving DecidableEq, Repr

/-- The zero message: the state produced by `reset()` and the starting state
of a decode. -/
def msgEmpty : SSEMessage := { id := "", etype := "", retry := 0, chunks := [] }

/-- Modelled from the spec: scan one line off a character list. Line
terminators are `\n`, `\r` and `\r\n` (the two-byte form recognised first);
they are not part of the line. Returns the line and `some rest` when a
terminator was found, `none` when input ended without one. -/
def takeLine : List Char → List Char × Option (List Char)
  | [] => ([], none)
  | c :: rest =>
    if c = '\x0a' then ([], some rest)
    else if c = '\x0d' then
      ([], some (if rest.head? = some '\x0a' then rest.tail else rest))
    else
      ((c :: (takeLine rest).1), (takeLine rest).2)

/-- Fuel-indexed worker for `splitChunks`; the fuel only drives structural
recursion and is always called with at least the input length. -/
def splitChunksF : Nat → List Char → List (List Char)
  | _, [] => []
  | 0, _ => []
  | fuel + 1, cs =>
    match takeLine cs with
    | (l, none) => [l]
    | (l, some rest) => l :: splitChunksF fuel rest

/-- Modelled from the spec and `TestNew` / `TestEvent_WriteTo`: split a datum
into line segments on `\r\n`, `\n`, `\r` (in that recognition order). The
tests fix the boundary behaviour: an empty input yields no segment and a
trailing separator yields no extra empty segment
(`"Important data\nImportant again\r\rVery important\r\n"` yields exactly the
four segments `Important data`, `Important again`, ``, `Very important`). -/
def splitChunks (cs : List Char) : List (List Char) :=
  splitChunksF cs.length cs

/-- The splitter exactly as the chunking claim words it, for comparison with
`splitChunks`: one segment per separator-delimited piece where a trailing
separator at the end of the input yields one extra empty segment (so the
final segment, empty or not, is always kept; the empty input consists of one
empty final segment). -/
def claimSplitF : Nat → List Char → List (List Char)
  | _, [] => [[]]
  | 0, _ => [[]]
  | fuel + 1, cs =>
    match takeLine cs with
    | (l, none) => [l]
    | (l, some rest) => l :: claimSplitF fuel rest

/-- Wrapper of `claimSplitF` at sufficient fuel. -/
def claimSplit (cs : List Char) : List (List Char) :=
  claimSplitF cs.length cs

/-- Modelled from the spec (`AppendData`): each value is split into segments
and appended as non-comment chunks. -/
def SSEMessage.AppendData (m : SSEMessage) (vs : List String) : SSEMessage :=
  vs.foldl
    (fun m v =>
      { m with chunks :=
          m.chunks ++ (splitChunks v.data).map (fun l => ⟨String.mk l, false⟩) })
    m

/-- Modelled from the spec (`Comment`): identical splitting, chunks marked as
comments. -/
def SSEMessage.Comment (m : SSEMessage) (vs : List String) : SSEMessage :=
  vs.foldl
    (fun m v =>
      { m with chunks :=
          m.chunks ++ (splitChunks v.data).map (fun l => ⟨String.mk l, true⟩) })
    m

/-- Modelled from the spec (`WriteTo`, encoding): the lines emitted for a
message, in the fixed order `id`, `event`, `retry`, then the chunks. -/
def writeLines (m : SSEMessage) : List String :=
  (if m.id = "" then [] else ["id: " ++ m.id]) ++
    (if m.etype = "" then [] else ["event: " ++ m.etype]) ++
      (if m.retry = 0 then [] else ["retry: " ++ toString m.retry]) ++
        m.chunks.map (fun c => (if c.isComment then ": " else "data: ") ++ c.content)

/-- Modelled from the spec: the full encoded byte string: every line followed
by exactly one `\n`, then the terminating blank line. -/
def writeToString (m : SSEMessage) : String :=
  String.join ((writeLines m).map (fun l => l ++ "\x0a")) ++ "\x0a"

/-- Modelled from the spec (`WriteTo`): the encoded bytes together with the
returned byte count (the error-free case: the sink accepts everything, so the
count is the byte length of the output). -/
def SSEMessage.WriteTo (m : SSEMessage) : String × Nat :=
  (writeToString m, (writeToString m).utf8ByteSize)

/-- Observation used to state the chunking claims: whether an encoded line is
a `data:` line. -/
def isDataLine (l : String) : Bool :=
  match l.data with
  | 'd' :: 'a' :: 't' :: 'a' :: ':' :: _ => true
  | _ => false

/-- Observation used to state the chunking claims: whether a datum ends in a
line separator. -/
def endsWithSep (s : String) : Bool :=
  match s.data.getLast? with
  | some c => c = '\x0a' || c = '\x0d'
  | none => false

/-- The message of `TestEvent_WriteTo` (spec §8 scenario 1): ID
`example_id`, type `test_event`, retry 5s, three append/comment calls. -/
def exampleMessage : SSEMessage :=
  ((({ msgEmpty with
        id := "example_id", etype := "test_event",
        retry := 5000 }).AppendData
      ["This is an example\nOf an event", "", "a string here"]).Comment
    ["This test should pass"]).AppendData
    ["Important data\nImportant again\r\rVery important\r\n"]

/-- The exact byte string of spec §6.1 (also the `output` literal of
`TestEvent_WriteTo`). -/
def exampleOutput : String :=
  "id: example_id\nevent: test_event\nretry: 5000\ndata: This is an example\ndata: Of an event\ndata: a string here\n: This test should pass\ndata: Important data\ndata: Important again\ndata: \ndata: Very important\n\n"

/-- Reasons of decode failures: `UnexpectedEOF` or a malformed `retry` value
(the first offending non-ASCII-digit character, or an empty value). -/
inductive UnmarshalReason where
  | unexpectedEOF
  | notADigit (c : Char)
  | emptyValue
deriving DecidableEq, Repr

/-- Modelled from the spec: `UnmarshalError {FieldName, FieldValue, Reason}`.
The EOF error carries empty field name and value, as in
`TestEvent_UnmarshalText`. -/
structure UnmarshalError where
  fieldName : String
  fieldValue : String
  reason : UnmarshalReason
deriving DecidableEq, Repr

/-- The error returned when input ends before the terminating blank line. -/
def eofError : UnmarshalError := { fieldName := "", fieldValue := "", reason := .unexpectedEOF }

/-- Modelled from the spec: drop at most one optional leading space of a
field value. -/
def stripOneSpace : List Char → List Char
  | ' ' :: rest => rest
  | l => l

/-- Modelled from the spec: split a non-comment line at its first `:` into
field name and value (value stripped of at most one leading space); a line
without `:` is all name and the value is empty. -/
def splitNameValue : List Char → List Char × List Char
  | [] => ([], [])
  | c :: rest =>
    if c = ':' then ([], stripOneSpace rest)
    else ((c :: (splitNameValue rest).1), (splitNameValue rest).2)

/-- Modelled from the spec: a `retry` value must be a non-empty string of
ASCII digits; the error reports the first character that is not one. -/
def parseRetry (cs : List Char) : Except UnmarshalReason Nat :=
  match cs.find? (fun c => !c.isDigit) with
  | some c => .error (.notADigit c)
  | none =>
    if cs.isEmpty then .error .emptyValue
    else .ok (cs.foldl (fun n c => n * 10 + (c.toNat - 48)) 0)

/-- Modelled from the spec: field dispatch. `data` appends a chunk verbatim,
`event` overwrites the type, `id` is ignored entirely when the value contains
a NUL byte and overwrites the ID otherwise, `retry` parses the value or
fails, unknown names are ignored. -/
def dispatchField (m : SSEMessage) (name value : String) : Except UnmarshalError SSEMessage :=
  if name = "data" then .ok { m with chunks := m.chunks ++ [⟨value, false⟩] }
  else if name = "event" then .ok { m with etype := value }
  else if name = "id" then
    if value.data.contains '\x00' then .ok m else .ok { m with id := value }
  else if name = "retry" then
    match parseRetry value.data with
    | .ok n => .ok { m with retry := n }
    | .error r => .error { fieldName := "retry", fieldValue := value, reason := r }
  else .ok m

/-- The two shapes of a non-empty line: a comment (leading `:`) or a field
name/value pair. -/
inductive LineClass where
  | comment (value : List Char)
  | field (name value : List Char)
deriving DecidableEq, Repr

/-- Modelled from the spec: classify one (non-empty) line: a leading `:`
makes a comment with the remainder (minus one optional space) as value,
otherwise the line is split into field name and value. -/
def classifyLine (l : List Char) : LineClass :=
  match l with
  | ':' :: rest => .comment (stripOneSpace rest)
  | _ => .field (splitNameValue l).1 (splitNameValue l).2

/-- Modelled from the spec: process one (non-empty) line: a comment appends a
comment chunk, a field is dispatched on its name. -/
def dispatchLine (m : SSEMessage) (l : List Char) : Except UnmarshalError SSEMessage :=
  match classifyLine l with
  | .comment v => .ok { m with chunks := m.chunks ++ [⟨String.mk v, true⟩] }
  | .field n v => dispatchField m (String.mk n) (String.mk v)

/-- Fuel-indexed worker for `splitEvent`; any fuel at least the input length
gives the same result (`splitEventF_congr`). -/
def splitEventF : Nat → List Char → List (List Char) × Bool × List Char
  | 0, _ => ([], false, [])
  | fuel + 1, cs =>
    match takeLine cs with
    | (_, none) => ([], false, [])
    | (l, some rest) =>
      if l.isEmpty then ([], true, rest)
      else
        ((l :: (splitEventF fuel rest).1), (splitEventF fuel rest).2)

/-- Modelled from the spec: scan the lines of a single event: the terminated
non-empty lines before the blank line, whether a blank line was reached
(otherwise the input ended first, an unterminated trailing line is never
dispatched), and the unconsumed bytes after the blank line. -/
def splitEvent (cs : List Char) : List (List Char) × Bool × List Char :=
  splitEventF cs.length cs

/-- Dispatch the scanned lines in order; the first field error aborts. -/
def dispatchLines : SSEMessage → List (List Char) → Except UnmarshalError SSEMessage
  | m, [] => .ok m
  | m, l :: ls =>
    match dispatchLine m l with
    | .ok m2 => dispatchLines m2 ls
    | .error e => .error e

/-- Modelled from the spec (`UnmarshalText`): decode one event. Returns the
decoded message (reset to `msgEmpty` on any failure, as the source does), the
error if any, and the unconsumed bytes after the terminating blank line. -/
def SSEMessage.UnmarshalText (s : String) : SSEMessage × Option UnmarshalError × String :=
  match dispatchLines msgEmpty (splitEvent s.data).1 with
  | .error e => (msgEmpty, some e, "")
  | .ok m =>
    if (splitEvent s.data).2.1 then (m, none, String.mk (splitEvent s.data).2.2)
    else (msgEmpty, some eofError, "")

/-- A scanned line whose field dispatch cannot fail: anything but a `retry`
field with an unparsable value. -/
def lineRetryOK (l : List Char) : Bool :=
  match classifyLine l with
  | .comment _ => true
  | .field n v =>
    if String.mk n = "retry" then
      match parseRetry v with
      | .ok _ => true
      | .error _ => false
    else true

/-- All scanned lines dispatch without failure. -/
def linesRetryValid (ls : List (List Char)) : Bool := ls.all lineRetryOK

/-- The input of `TestEvent_UnmarshalText`'s "Valid input" case (spec §8
scenario 2). -/
def scenario2Input : String :=
  "data: raw bytes here\nretry: 500\nretry: 1000\nid: 1000\nid: 2000\nid: \x001\n: with comments\ndata: again raw bytes\ndata: from multiple lines\nevent: overwritten name\nevent: my name here\n\ndata: I should be ignored"

/-- The decode expected for scenario 2. -/
def scenario2Expected : SSEMessage :=
  { id := "2000", etype := "my name here", retry := 1000,
    chunks := [⟨"raw bytes here", false⟩, ⟨"with comments", true⟩,
               ⟨"again raw bytes", false⟩, ⟨"from multiple lines", false⟩] }

/-- An event as the replay buffers see it: its ID and its expiry instant
(`ExpiresAt`). Other fields do not matter to the providers. -/
structure RMsg where
  id : String
  expiresAt : Nat
deriving DecidableEq, Repr

/-- Replay errors: the requested ID is not in the buffer. -/
inductive ReplayErr where
  | idNotFound (id : String)
deriving DecidableEq, Repr

/-- Modelled from the spec (buffer primitive): `slice(fromID)` returns the
contiguous sub-sequence starting at the first message whose ID equals
`fromID`, and fails with `IDNotFound` when there is none (in particular on an
empty buffer). -/
def Buffer.slice (b : List RMsg) (fromID : String) : Except ReplayErr (List RMsg) :=
  match b.dropWhile (fun e => e.id != fromID) with
  | [] => .error (.idNotFound fromID)
  | r => .ok r

/-- Translated from `Finite.Append`: `if f.b.len() == f.count { f.b.dequeue() };
f.b.queue(ep)`. The buffer's `queue` appends and `dequeue` removes the oldest
entry (modelled from the spec). -/
def Finite.Append (count : Nat) (b : List RMsg) (m : RMsg) : List RMsg :=
  (if b.length = count then b.tail else b) ++ [m]

/-- Translated from `Finite.Range`: slice from the given ID, then apply `fn`
to `events[1:]`. The returned list is the sequence of events `fn` is invoked
on, in order. -/
def Finite.Range (b : List RMsg) (fromID : String) : Except ReplayErr (List RMsg) :=
  (Buffer.slice b fromID).map List.tail

/-- Translated from `Valid.GC`: loop taking the front entry; stop when the
buffer is empty or the front's `ExpiresAt` is before `now`, else dequeue. -/
def Valid.GC (now : Nat) : List RMsg → List RMsg
  | [] => []
  | e :: rest => if e.expiresAt < now then e :: rest else Valid.GC now rest

/-- Translated from `Noop.Append`: `func (Noop) Append(_ **event.Event) {}`
leaves the event untouched. -/
def Noop.Append (e : RMsg) : RMsg := e

/-- Translated from `Noop.GC`: `func (Noop) GC() {}`. The method's signature
in the `replay` package has no error result, so no error value is ever
produced; its (absent) error result is modelled as `none`. -/
def Noop.GCReturn : Option ReplayErr := none

/-- Translated from `Noop.Range`: returns `nil` and never invokes `fn`; the
list of events `fn` is invoked on is empty. -/
def Noop.Range (fromID : String) : Except ReplayErr (List RMsg) := .ok []

/-- Result of the broker's public operations: `nil` or `ErrProviderClosed`. -/
inductive JoeResult where
  | ok
  | closed
deriving DecidableEq, Repr

/-- The broker state the public operations touch: whether `done` has been
closed and the queued messages and subscriptions. Each operation is a
`select` between its channel send and `<-j.done`; once `done` is closed that
branch is taken, per the source's stated contract ("returns Closed if done
has been signalled"). -/
structure JoeState where
  done : Bool
  messages : List Nat
  subscriptions : List Nat
deriving DecidableEq, Repr

/-- Translated from `Joe.Stop`: a `select` with a `default` branch: if `done`
is already closed return `ErrProviderClosed`, else close `done` and return
`nil`. -/
def Joe.Stop (st : JoeState) : JoeState × JoeResult :=
  if st.done then (st, .closed) else ({ st with done := true }, .ok)

/-- Translated from `Joe.Publish`: enqueue onto the `message` channel, or
return `ErrProviderClosed` when `done` has been signalled. -/
def Joe.Publish (st : JoeState) (m : Nat) : JoeState × JoeResult :=
  if st.done then (st, .closed)
  else ({ st with messages := st.messages ++ [m] }, .ok)

/-- Translated from `Joe.Subscribe` (the caller-side send): enqueue onto the
`subscription` channel, or return `ErrProviderClosed` when `done` has been
signalled. -/
def Joe.Subscribe (st : JoeState) (s : Nat) : JoeState × JoeResult :=
  if st.done then (st, .closed)
  else ({ st with subscriptions := st.subscriptions ++ [s] }, .ok)

/-- The inputs of one iteration of `Joe.start`'s `select`, as far as the
topic/subscriber tables are concerned. Subscriber channels are identified by
naturals. -/
inductive JoeEvent where
  | message (topic : String)
  | subscribe (ch : Nat) (ts : List String)
  | unsubscribe (ch : Nat)
  | gcTick
deriving DecidableEq, Repr

/-- The loop-owned tables: `topics` (map from topic name to subscriber set)
and `subscribers`. -/
structure LoopState where
  topics : List (String × List Nat)
  subscribers : List Nat
deriving DecidableEq, Repr

/-- The tables a fresh `Joe` starts with: both empty. -/
def initLoopState : LoopState := { topics := [], subscribers := [] }

/-- Translated from `Joe.topic` plus the map insert
`j.topic(topic)[sub.Channel] = struct{}{}`: create the topic entry if absent
and add the channel to its set. -/
def topicInsert : List (String × List Nat) → String → Nat → List (String × List Nat)
  | [], t, ch => [(t, [ch])]
  | (t2, l) :: rest, t, ch =>
    if t2 = t then (t2, if ch ∈ l then l else l ++ [ch]) :: rest
    else (t2, l) :: topicInsert rest t ch

/-- Translated from the `select` cases of `Joe.start`, restricted to their
effect on the tables: a message changes nothing (it is only sent out); a
subscription already registered is ignored, otherwise its channel is added to
every requested topic and to `subscribers`; an unsubscription removes the
channel from every topic set and from `subscribers`; a GC tick touches no
table. -/
def loopStep (st : LoopState) : JoeEvent → LoopState
  | .message _ => st
  | .subscribe ch ts =>
    if ch ∈ st.subscribers then st
    else
      { topics := ts.foldl (fun tp t => topicInsert tp t ch) st.topics,
        subscribers := st.subscribers ++ [ch] }
  | .unsubscribe ch =>
    { topics := st.topics.map (fun p => (p.1, p.2.filter (fun x => x != ch))),
      subscribers := st.subscribers.filter (fun x => x != ch) }
  | .gcTick => st

/-- Translated from `Joe.closeSubscribers`: the sinks closed at loop exit are
exactly the members of `subscribers`. -/
def Joe.closeSubscribers (st : LoopState) : List Nat := st.subscribers

/-- The event-loop table invariant: every channel registered under any topic
is also a member of `subscribers`. -/
def topicsInv (st : LoopState) : Prop :=
  ∀ t l ch, (t, l) ∈ st.topics → ch ∈ l → ch ∈ st.subscribers


/-! ### Lemmas about the line scanner and the splitters -/

theorem takeLine_some_lt (cs : List Char) :
    ∀ l r, takeLine cs = (l, some r) → r.length < cs.length := by
  induction cs with
  | nil => intro l r h; simp [takeLine] at h
  | cons c rest ih =>
    intro l r h
    simp only [takeLine] at h
    split_ifs at h with h1 h2 h3
    · injection h with ha hb
      injection hb with hb
      subst hb
      simp
    · injection h with ha hb
      injection hb with hb
      subst hb
      have h4 := List.length_tail rest
      simp only [List.length_cons]
      omega
    · injection h with ha hb
      injection hb with hb
      subst hb
      simp
    · injection h with ha hb
      have h4 : takeLine rest = ((takeLine rest).1, some r) := by rw [← hb]
      have h5 := ih _ r h4
      simp only [List.length_cons]
      omega

theorem takeLine_no_sep (cs : List Char) :
    ∀ l r, takeLine cs = (l, r) → '\x0a' ∉ l ∧ '\x0d' ∉ l := by
  induction cs with
  | nil =>
    intro l r h
    simp only [takeLine] at h
    injection h with ha hb
    subst ha
    simp
  | cons c rest ih =>
    intro l r h
    simp only [takeLine] at h
    split_ifs at h with h1 h2 h3
    · injection h with ha hb; subst ha; simp
    · injection h with ha hb; subst ha; simp
    · injection h with ha hb; subst ha; simp
    · injection h with ha hb
      have h5 := ih (takeLine rest).1 (takeLine rest).2 rfl
      subst ha
      refine ⟨?_, ?_⟩
      · intro hmem
        rcases List.mem_cons.mp hmem with h6 | h6
        · exact h1 h6.symm
        · exact h5.1 h6
      · intro hmem
        rcases List.mem_cons.mp hmem with h6 | h6
        · exact h2 h6.symm
        · exact h5.2 h6

theorem takeLine_none_eq (cs : List Char) :
    ∀ l, takeLine cs = (l, none) → l = cs := by
  induction cs with
  | nil =>
    intro l h
    simp only [takeLine] at h
    injection h with ha hb
    exact ha.symm
  | cons c rest ih =>
    intro l h
    simp only [takeLine] at h
    split_ifs at h with h1 h2 h3
    · injection h with ha hb; exact absurd hb (by simp)
    · injection h with ha hb; exact absurd hb (by simp)
    · injection h with ha hb; exact absurd hb (by simp)
    · injection h with ha hb
      have h4 : takeLine rest = ((takeLine rest).1, none) := by rw [← hb]
      have h5 := ih _ h4
      rw [← ha, h5]

theorem claimSplitF_ne_nil (fuel : Nat) : ∀ cs, claimSplitF fuel cs ≠ [] := by
  induction fuel with
  | zero => intro cs; cases cs <;> simp [claimSplitF]
  | succ f ih =>
    intro cs
    cases cs with
    | nil => simp [claimSplitF]
    | cons c rest =>
      simp only [claimSplitF]
      cases h : takeLine (c :: rest) with
      | mk l r =>
        cases r with
        | none => simp
        | some rest2 => simp

theorem splitChunksF_drops_final_empty (fuel : Nat) :
    ∀ cs, cs.length ≤ fuel →
      splitChunksF fuel cs =
        (if (claimSplitF fuel cs).getLast? = some [] then (claimSplitF fuel cs).dropLast
         else claimSplitF fuel cs) := by
  induction fuel with
  | zero =>
    intro cs h
    have h0 : cs = [] := List.eq_nil_of_length_eq_zero (Nat.le_zero.mp h)
    subst h0
    simp [splitChunksF, claimSplitF]
  | succ f ih =>
    intro cs h
    cases cs with
    | nil => simp [splitChunksF, claimSplitF]
    | cons c rest =>
      simp only [splitChunksF, claimSplitF]
      cases h3 : takeLine (c :: rest) with
      | mk l r =>
        cases r with
        | none =>
          have h4 := takeLine_none_eq (c :: rest) l h3
          have h5 : l ≠ [] := by rw [h4]; simp
          simp [h5]
        | some rest2 =>
          have h4 := takeLine_some_lt (c :: rest) l rest2 h3
          simp only [List.length_cons] at h h4
          have h5 : rest2.length ≤ f := by omega
          have h6 := ih rest2 h5
          dsimp only
          rw [h6]
          rcases h7 : claimSplitF f rest2 with _ | ⟨x, xs⟩
          · exact absurd h7 (claimSplitF_ne_nil f rest2)
          · rw [List.getLast?_cons_cons]
            by_cases h8 : (x :: xs).getLast? = some []
            · rw [if_pos h8, if_pos h8]
              rfl
            · rw [if_neg h8, if_neg h8]

theorem splitChunksF_no_sep (fuel : Nat) :
    ∀ cs, cs.length ≤ fuel → ∀ l ∈ splitChunksF fuel cs, '\x0a' ∉ l ∧ '\x0d' ∉ l := by
  induction fuel with
  | zero =>
    intro cs h
    have h0 : cs = [] := List.eq_nil_of_length_eq_zero (Nat.le_zero.mp h)
    subst h0
    simp [splitChunksF]
  | succ f ih =>
    intro cs h
    cases cs with
    | nil => simp [splitChunksF]
    | cons c rest =>
      simp only [splitChunksF]
      cases h3 : takeLine (c :: rest) with
      | mk lx r =>
        cases r with
        | none =>
          intro l hl
          dsimp only at hl
          rw [List.mem_singleton] at hl
          subst hl
          exact takeLine_no_sep (c :: rest) l none h3
        | some rest2 =>
          intro l hl
          dsimp only at hl
          rcases List.mem_cons.mp hl with h6 | h6
          · subst h6
            exact takeLine_no_sep (c :: rest) l (some rest2) h3
          · have h4 := takeLine_some_lt (c :: rest) lx rest2 h3
            simp only [List.length_cons] at h h4
            exact ih rest2 (by omega) l h6

theorem isDataLine_data (s : String) : isDataLine ("data: " ++ s) = true := rfl

theorem isDataLine_comment (s : String) : isDataLine (": " ++ s) = false := rfl

set_option maxRecDepth 1000000

/-! ### The claims -/

/-- C1: the claim is right and the code is wrong. `Valid.GC`'s loop breaks
when the front entry's `ExpiresAt` is *before* `now` and dequeues otherwise,
so at `now = 5` it removes an entry expiring at 10 (not expired) and keeps an
entry that expired at 1 — the opposite of the claim and of the provider's own
documentation ("remove expired events from the buffer"). -/
theorem C1_valid_gc_eval :
    Valid.GC 5 [⟨"a", 10⟩] = [] ∧
    Valid.GC 5 [⟨"b", 1⟩] = [⟨"b", 1⟩] ∧
    Valid.GC 5 [⟨"b", 1⟩, ⟨"a", 10⟩] = [⟨"b", 1⟩, ⟨"a", 10⟩] := by decide

/-- C2: building the message of §8 scenario 1 (`TestEvent_WriteTo`) and
encoding it yields exactly the §6.1 byte string, and the returned byte count
equals that string's length. -/
theorem C2_encode_example :
    exampleMessage.WriteTo = (exampleOutput, exampleOutput.length) := by decide

/-- C3 (amended): `AppendData` splits on `\r\n`, `\n`, `\r` (in that
recognition order) into one non-comment chunk per segment, except that the
extra empty segment the claim predicts for a trailing separator is dropped:
the code's split equals the claimed split minus a final empty segment.
Encoding afterwards emits exactly one `data:` line per chunk, and no chunk
contains a separator character. -/
theorem C3_append_data_split (s : String) :
    splitChunks s.data =
      (if (claimSplit s.data).getLast? = some [] then (claimSplit s.data).dropLast
       else claimSplit s.data) ∧
    (msgEmpty.AppendData [s]).chunks
        = (splitChunks s.data).map (fun l => ⟨String.mk l, false⟩) ∧
    (writeLines (msgEmpty.AppendData [s])).countP isDataLine
        = (splitChunks s.data).length ∧
    ∀ c ∈ (msgEmpty.AppendData [s]).chunks,
      c.isComment = false ∧ '\x0a' ∉ c.content.data ∧ '\x0d' ∉ c.content.data := by
  refine ⟨?_, ?_, ?_, ?_⟩
  · exact splitChunksF_drops_final_empty s.data.length s.data le_rfl
  · simp [SSEMessage.AppendData, msgEmpty]
  · have h1 : writeLines (msgEmpty.AppendData [s])
        = (splitChunks s.data).map (fun l => "data: " ++ String.mk l) := by
      simp [SSEMessage.AppendData, writeLines, msgEmpty, List.map_map, Function.comp]
    rw [h1, List.countP_map]
    exact List.countP_eq_length.mpr (fun l _ => isDataLine_data (String.mk l))
  · intro c hc
    simp only [SSEMessage.AppendData, List.foldl_cons, List.foldl_nil, msgEmpty] at hc
    simp only [List.nil_append] at hc
    rcases List.mem_map.mp hc with ⟨l, hl, rfl⟩
    exact ⟨rfl, (splitChunksF_no_sep s.data.length s.data le_rfl l hl).1,
      (splitChunksF_no_sep s.data.length s.data le_rfl l hl).2⟩

/-- C3 counterexample: for the input `"a\n"` — which ends in a separator —
the claim predicts an extra empty chunk (the claimed splitter yields the two
segments `"a"` and `""`), but `AppendData` produces the single chunk `"a"`
and encoding emits one `data:` line, not two. -/
theorem C3_counterexample :
    endsWithSep "a\n" = true ∧
    claimSplit "a\n".data = ["a".data, []] ∧
    (msgEmpty.AppendData ["a\n"]).chunks = [⟨"a", false⟩] ∧
    (writeLines (msgEmpty.AppendData ["a\n"])).countP isDataLine = 1 ∧
    (claimSplit "a\n".data).length = 2 ∧
    (writeLines (msgEmpty.AppendData ["a\n"])).countP isDataLine ≠
      (claimSplit "a\n".data).length := by decide

/-- C3 witness: the amended theorem applied at the concrete input `"x\ry"`:
its chunks are the non-comment, separator-free chunks `"x"` and `"y"`. -/
theorem C3_witness :
    ((⟨"x", false⟩ : SSEChunk).isComment = false ∧
        '\x0a' ∉ (⟨"x", false⟩ : SSEChunk).content.data ∧
          '\x0d' ∉ (⟨"x", false⟩ : SSEChunk).content.data) ∧
      (msgEmpty.AppendData ["x\ry"]).chunks = [⟨"x", false⟩, ⟨"y", false⟩] :=
  ⟨(C3_append_data_split "x\ry").2.2.2 ⟨"x", false⟩ (by decide), by decide⟩

/-- C8 counterexample: `Noop.GC` signals no error: in the `replay` package
the method's signature has no error result at all, so its (absent) error,
modelled as an `Option`, is `none` rather than a non-nil "unsupported"
error. -/
theorem C8_counterexample : Noop.GCReturn = none := rfl

/-- C8 (amended): all of `Noop`'s operations are no-ops: `Append` leaves the
event unchanged, `GC` does nothing and signals no error, and `Range` returns
nil error and invokes its callback on no event. -/
theorem C8_noop_ops :
    Noop.GCReturn = none ∧ (∀ e, Noop.Append e = e) ∧
      (∀ fromID, Noop.Range fromID = .ok []) :=
  ⟨rfl, fun _ => rfl, fun _ => rfl⟩

theorem dispatchLine_ok (m : SSEMessage) (l : List Char) (h : lineRetryOK l = true) :
    ∃ m2, dispatchLine m l = .ok m2 := by
  unfold dispatchLine
  unfold lineRetryOK at h
  cases hc : classifyLine l with
  | comment v => exact ⟨_, rfl⟩
  | field n v =>
    rw [hc] at h
    dsimp only at h ⊢
    unfold dispatchField
    split_ifs with h1 h2 h3 h4 h5
    · exact ⟨_, rfl⟩
    · exact ⟨_, rfl⟩
    · exact ⟨_, rfl⟩
    · exact ⟨_, rfl⟩
    · rw [if_pos h5] at h
      have hd : (String.mk v).data = v := rfl
      rw [hd]
      cases hp : parseRetry v with
      | ok k => exact ⟨_, rfl⟩
      | error r => rw [hp] at h; exact absurd h (by simp)
    · exact ⟨_, rfl⟩

theorem dispatchLines_ok (ls : List (List Char)) :
    ∀ m, linesRetryValid ls = true → ∃ m2, dispatchLines m ls = .ok m2 := by
  induction ls with
  | nil => intro m h; exact ⟨m, rfl⟩
  | cons l ls ih =>
    intro m h
    simp only [linesRetryValid, List.all_cons, Bool.and_eq_true] at h
    obtain ⟨m2, hm2⟩ := dispatchLine_ok m l h.1
    obtain ⟨m3, hm3⟩ := ih m2 h.2
    refine ⟨m3, ?_⟩
    simp only [dispatchLines]
    rw [hm2]
    exact hm3

/-- C4: the field-dispatch and termination rules of `UnmarshalText`: an `id`
value containing NUL is ignored entirely (the previous ID is kept), an `id`
value without NUL overwrites the ID, `event` always overwrites the type (so
for repeated `event` fields the last value wins), a valid `retry` value
always overwrites the retry (so for repeated valid `retry` fields the last
wins), a line with no characters ends the event leaving all following bytes
unconsumed, and the §8 scenario 2 input decodes to exactly the expected
message with the bytes after the blank line left over. -/
theorem C4_decode_fields :
    (∀ (m : SSEMessage) (v : String), v.data.contains '\x00' = true →
        dispatchField m "id" v = .ok m) ∧
    (∀ (m : SSEMessage) (v : String), v.data.contains '\x00' = false →
        dispatchField m "id" v = .ok { m with id := v }) ∧
    (∀ (m : SSEMessage) (v : String),
        dispatchField m "event" v = .ok { m with etype := v }) ∧
    (∀ (m : SSEMessage) (a b : String),
        (dispatchField m "event" a).bind (fun m1 => dispatchField m1 "event" b)
          = .ok { m with etype := b }) ∧
    (∀ (m : SSEMessage) (v : String) (n : Nat), parseRetry v.data = .ok n →
        dispatchField m "retry" v = .ok { m with retry := n }) ∧
    (∀ (m : SSEMessage) (a b : String) (na nb : Nat), parseRetry a.data = .ok na →
        parseRetry b.data = .ok nb →
        (dispatchField m "retry" a).bind (fun m1 => dispatchField m1 "retry" b)
          = .ok { m with retry := nb }) ∧
    (∀ rest : List Char,
        SSEMessage.UnmarshalText (String.mk ('\x0a' :: rest))
          = (msgEmpty, none, String.mk rest)) ∧
    SSEMessage.UnmarshalText scenario2Input
      = (scenario2Expected, none, "data: I should be ignored") := by
  refine ⟨?_, ?_, ?_, ?_, ?_, ?_, ?_, by decide⟩
  · intro m v h
    have e1 : dispatchField m "id" v
        = if v.data.contains '\x00' = true then .ok m else .ok { m with id := v } := rfl
    rw [e1, if_pos h]
  · intro m v h
    have e1 : dispatchField m "id" v
        = if v.data.contains '\x00' = true then .ok m else .ok { m with id := v } := rfl
    rw [e1, if_neg (by simpa using h)]
  · intro m v
    simp [dispatchField]
  · intro m a b
    simp [dispatchField, Except.bind]
  · intro m v n h
    simp [dispatchField, h]
  · intro m a b na nb ha hb
    simp [dispatchField, Except.bind, ha, hb]
  · intro rest
    rfl

/-- C4 witness: the dispatch rules applied at the concrete inputs of §8
scenario 2: the NUL-containing id value is ignored (also on a message whose
ID is already `2000`), and `retry: 1000` sets the retry. -/
theorem C4_witness :
    dispatchField msgEmpty "id" "\x001" = .ok msgEmpty ∧
    dispatchField { msgEmpty with id := "2000" } "id" "\x001"
      = .ok { msgEmpty with id := "2000" } ∧
    dispatchField msgEmpty "retry" "1000" = .ok { msgEmpty with retry := 1000 } :=
  ⟨C4_decode_fields.1 msgEmpty "\x001" (by decide),
   C4_decode_fields.1 { msgEmpty with id := "2000" } "\x001" (by decide),
   C4_decode_fields.2.2.2.2.1 msgEmpty "1000" 1000 rfl⟩

/-- C5: decode failures: whenever the scanner finds no terminating blank line
and no scanned `retry` field is malformed, decoding fails with
`UnexpectedEOF` (in particular on empty input and on §8 scenario 4's input);
a malformed `retry` value fails with the error carrying the field name,
value and the offending character (§8 scenario 3); and in every failure case
the resulting message is the empty message. -/
theorem C5_decode_failures :
    (∀ s : String, (splitEvent s.data).2.1 = false →
        linesRetryValid (splitEvent s.data).1 = true →
          SSEMessage.UnmarshalText s = (msgEmpty, some eofError, "")) ∧
    (∀ (s : String) (e : UnmarshalError),
        (SSEMessage.UnmarshalText s).2.1 = some e →
          (SSEMessage.UnmarshalText s).1 = msgEmpty) ∧
    SSEMessage.UnmarshalText "" = (msgEmpty, some eofError, "") ∧
    SSEMessage.UnmarshalText "retry: sigma male\n"
      = (msgEmpty,
          some { fieldName := "retry", fieldValue := "sigma male",
                 reason := .notADigit 's' }, "") ∧
    SSEMessage.UnmarshalText "data: first\ndata:second\ndata:third"
      = (msgEmpty, some eofError, "") := by
  refine ⟨?_, ?_, by decide, by decide, by decide⟩
  · intro s h1 h2
    obtain ⟨m2, hm2⟩ := dispatchLines_ok _ msgEmpty h2
    unfold SSEMessage.UnmarshalText
    rw [hm2]
    dsimp only
    rw [h1]
    simp
  · intro s e h
    unfold SSEMessage.UnmarshalText at h ⊢
    cases hd : dispatchLines msgEmpty (splitEvent s.data).1 with
    | error e2 => rfl
    | ok m2 =>
      rw [hd] at h
      dsimp only at h ⊢
      by_cases ht : (splitEvent s.data).2.1 = true
      · rw [if_pos ht] at h
        exact absurd h (by simp)
      · rw [if_neg ht]

/-- C5 witness: the EOF rule applied at the concrete unterminated input
`"data: x"`, and the reset rule applied at §8 scenario 3's input. -/
theorem C5_witness :
    (splitEvent "data: x".data).2.1 = false ∧
    linesRetryValid (splitEvent "data: x".data).1 = true ∧
    SSEMessage.UnmarshalText "data: x" = (msgEmpty, some eofError, "") ∧
    (SSEMessage.UnmarshalText "retry: sigma male\n").1 = msgEmpty :=
  ⟨by decide, by decide,
    C5_decode_failures.1 "data: x" (by decide) (by decide),
    C5_decode_failures.2.1 "retry: sigma male\n"
      { fieldName := "retry", fieldValue := "sigma male", reason := .notADigit 's' }
      (by decide)⟩

theorem finiteAppend_foldl (k : Nat) (hk : 1 ≤ k) :
    ∀ (ms buf : List RMsg), buf.length ≤ k →
      ms.foldl (Finite.Append k) buf = (buf ++ ms).drop (buf.length + ms.length - k) := by
  intro ms
  induction ms with
  | nil =>
    intro buf h
    simp [Nat.sub_eq_zero_of_le h]
  | cons m rest ih =>
    intro buf h
    simp only [List.foldl_cons]
    by_cases hb : buf.length = k
    · cases buf with
      | nil => rw [List.length_nil] at hb; omega
      | cons b0 btail =>
        have h1 : Finite.Append k (b0 :: btail) m = btail ++ [m] := by
          simp [Finite.Append, hb]
        rw [h1]
        have hbt : btail.length + 1 = k := by simpa using hb
        have hlen : (btail ++ [m]).length ≤ k := by simp; omega
        rw [ih _ hlen]
        have e1 : (btail ++ [m]).length + rest.length - k = rest.length := by
          simp only [List.length_append, List.length_cons, List.length_nil]
          omega
        have e2 : (b0 :: btail).length + (m :: rest).length - k = rest.length + 1 := by
          simp only [List.length_append, List.length_cons, List.length_nil]
          omega
        rw [e1, e2, List.cons_append, List.drop_succ_cons, List.append_assoc,
          List.singleton_append]
    · have h1 : Finite.Append k buf m = buf ++ [m] := by
        simp [Finite.Append, hb]
      rw [h1]
      have hlen : (buf ++ [m]).length ≤ k := by
        simp only [List.length_append, List.length_cons, List.length_nil]
        omega
      rw [ih _ hlen]
      have e1 : (buf ++ [m]).length + rest.length - k
          = buf.length + (m :: rest).length - k := by
        simp only [List.length_append, List.length_cons, List.length_nil]
        omega
      rw [e1, List.append_assoc, List.singleton_append]

/-- C6 (amended): for every capacity `k ≥ 1`, appending `N > k` messages
through `Finite.Append` starting from an empty buffer leaves exactly the last
`k` appended messages, in insertion order. (`Finite.Append` dequeues the
oldest entry exactly when the buffer already holds `k` entries, then
queues.) -/
theorem C6_finite_fifo (k : Nat) (hk : 1 ≤ k) (ms : List RMsg) (hN : k < ms.length) :
    ms.foldl (Finite.Append k) [] = ms.drop (ms.length - k) := by
  have h := finiteAppend_foldl k hk ms [] (by simp)
  simpa using h

/-- C6 counterexample: at `k = 0` the claim fails: after one append
(`N = 1 > k`) the buffer holds that message instead of the last zero
messages — `len == count` holds on the empty buffer, the dequeue is a no-op,
and the queue grows past the capacity. -/
theorem C6_counterexample :
    List.foldl (Finite.Append 0) [] [(⟨"m1", 7⟩ : RMsg)] = [⟨"m1", 7⟩] ∧
    ([(⟨"m1", 7⟩ : RMsg)].drop (1 - 0)) = [] ∧
    List.foldl (Finite.Append 0) [] [(⟨"m1", 7⟩ : RMsg)]
      ≠ [(⟨"m1", 7⟩ : RMsg)].drop (1 - 0) := by decide

/-- C6 witness: three appends into a `Finite(2)` buffer keep the last two
messages in order. -/
theorem C6_witness :
    List.foldl (Finite.Append 2) [] [(⟨"1", 0⟩ : RMsg), ⟨"2", 0⟩, ⟨"3", 0⟩]
      = [⟨"2", 0⟩, ⟨"3", 0⟩] := by
  have h := C6_finite_fifo 2 (by decide) [⟨"1", 0⟩, ⟨"2", 0⟩, ⟨"3", 0⟩] (by decide)
  exact h.trans (by decide)

theorem range_cons_ne (e : RMsg) (rest : List RMsg) (f : String) (h : e.id ≠ f) :
    Finite.Range (e :: rest) f = Finite.Range rest f := by
  have hp : (e.id != f) = true := by simpa using h
  simp [Finite.Range, Buffer.slice, List.dropWhile, hp]

theorem finite_range_found (buf : List RMsg) (fromID : String) :
    fromID ∈ buf.map RMsg.id →
      ∃ pre anchor post, buf = pre ++ anchor :: post ∧ anchor.id = fromID ∧
        (∀ e ∈ pre, e.id ≠ fromID) ∧ Finite.Range buf fromID = .ok post := by
  induction buf with
  | nil => intro h; simp at h
  | cons e rest ih =>
    intro h
    by_cases he : e.id = fromID
    · refine ⟨[], e, rest, by simp, he, by simp, ?_⟩
      have hp : (e.id != fromID) = false := by simpa using he
      simp [Finite.Range, Buffer.slice, List.dropWhile, hp, Except.map]
    · have h2 : fromID ∈ rest.map RMsg.id := by
        rcases List.mem_map.mp h with ⟨x, hx, hxid⟩
        rcases List.mem_cons.mp hx with rfl | hx2
        · exact absurd hxid he
        · exact hxid ▸ List.mem_map_of_mem RMsg.id hx2
      obtain ⟨pre, anchor, post, hb, ha, hpre, hr⟩ := ih h2
      refine ⟨e :: pre, anchor, post, by rw [hb, List.cons_append], ha, ?_, ?_⟩
      · intro x hx
        rcases List.mem_cons.mp hx with rfl | hx2
        · exact he
        · exact hpre x hx2
      · rw [range_cons_ne e rest fromID he]
        exact hr

theorem finite_range_last (pre : List RMsg) (e : RMsg) :
    ((pre ++ [e]).map RMsg.id).Nodup → Finite.Range (pre ++ [e]) e.id = .ok [] := by
  induction pre with
  | nil =>
    intro h
    have hp : (e.id != e.id) = false := by simp
    simp [Finite.Range, Buffer.slice, List.dropWhile, hp, Except.map]
  | cons b pre ih =>
    intro h
    rw [List.cons_append, List.map_cons, List.nodup_cons] at h
    have he : e.id ∈ (pre ++ [e]).map RMsg.id := by simp
    have hb : b.id ≠ e.id := fun heq => h.1 (heq ▸ he)
    rw [List.cons_append, range_cons_ne b (pre ++ [e]) e.id hb]
    exact ih h.2

theorem finite_range_absent (buf : List RMsg) (fromID : String) :
    fromID ∉ buf.map RMsg.id → Finite.Range buf fromID = .error (.idNotFound fromID) := by
  intro h
  have hd : buf.dropWhile (fun e => e.id != fromID) = [] := by
    rw [List.dropWhile_eq_nil_iff]
    intro x hx
    have hm : x.id ∈ buf.map RMsg.id := List.mem_map_of_mem _ hx
    simp only [bne_iff_ne, ne_eq]
    intro heq
    exact h (heq ▸ hm)
  simp [Finite.Range, Buffer.slice, hd, Except.map]

/-- C7: `Finite.Range` with an ID present in the buffer invokes the callback
exactly on the messages strictly after the anchor (the first entry carrying
that ID), in insertion order; with the most recent ID (under the buffers'
unique-ID assumption) it invokes the callback on nothing; with an absent ID
(in particular on an empty buffer) it returns `IDNotFound` and the callback
is never invoked (the returned list is the exact sequence of callback
arguments). -/
theorem C7_finite_range (buf : List RMsg) (fromID : String) :
    (fromID ∈ buf.map RMsg.id →
      ∃ pre anchor post, buf = pre ++ anchor :: post ∧ anchor.id = fromID ∧
        (∀ e ∈ pre, e.id ≠ fromID) ∧ Finite.Range buf fromID = .ok post) ∧
    (∀ (pre : List RMsg) (e : RMsg), buf = pre ++ [e] →
        (buf.map RMsg.id).Nodup → Finite.Range buf e.id = .ok []) ∧
    (fromID ∉ buf.map RMsg.id →
        Finite.Range buf fromID = .error (.idNotFound fromID)) :=
  ⟨finite_range_found buf fromID,
   fun pre e hb hn => by
     rw [hb] at hn ⊢
     exact finite_range_last pre e hn,
   finite_range_absent buf fromID⟩

/-- C7 witness: on the three-entry buffer with IDs 1, 2, 3: ranging from 2
yields exactly the entry after the anchor, ranging from the most recent ID 3
yields nothing, and ranging from the absent ID 9 fails with `IDNotFound`. -/
theorem C7_witness :
    (∃ pre anchor post,
        ([⟨"1", 0⟩, ⟨"2", 0⟩, ⟨"3", 0⟩] : List RMsg) = pre ++ anchor :: post ∧
          anchor.id = "2" ∧ (∀ e ∈ pre, e.id ≠ "2") ∧
            Finite.Range [⟨"1", 0⟩, ⟨"2", 0⟩, ⟨"3", 0⟩] "2" = .ok post) ∧
    Finite.Range [⟨"1", 0⟩, ⟨"2", 0⟩, ⟨"3", 0⟩] "3" = .ok [] ∧
    Finite.Range [⟨"1", 0⟩, ⟨"2", 0⟩, ⟨"3", 0⟩] "9" = .error (.idNotFound "9") :=
  ⟨(C7_finite_range [⟨"1", 0⟩, ⟨"2", 0⟩, ⟨"3", 0⟩] "2").1 (by decide),
   (C7_finite_range [⟨"1", 0⟩, ⟨"2", 0⟩, ⟨"3", 0⟩] "3").2.1
     [⟨"1", 0⟩, ⟨"2", 0⟩] ⟨"3", 0⟩ rfl (by decide),
   (C7_finite_range [⟨"1", 0⟩, ⟨"2", 0⟩, ⟨"3", 0⟩] "9").2.2 (by decide)⟩

/-- C9: `Joe.Stop` is idempotent: on a broker whose `done` is not yet
signalled it signals `done` and returns Ok, and after any `Stop` every
further `Stop` returns Closed; moreover once `done` is signalled `Publish`
and `Subscribe` return Closed and leave the state (in particular the queues)
unchanged. -/
theorem C9_stop_idempotent :
    (∀ st : JoeState, st.done = false → Joe.Stop st = ({ st with done := true }, .ok)) ∧
    (∀ st : JoeState, (Joe.Stop (Joe.Stop st).1).2 = .closed) ∧
    (∀ st : JoeState, st.done = true →
        Joe.Stop st = (st, .closed) ∧
          (∀ m, Joe.Publish st m = (st, .closed)) ∧
            (∀ sub, Joe.Subscribe st sub = (st, .closed))) := by
  refine ⟨?_, ?_, ?_⟩
  · intro st h
    simp [Joe.Stop, h]
  · intro st
    by_cases h : st.done = true
    · simp [Joe.Stop, h]
    · simp [Joe.Stop, h]
  · intro st h
    exact ⟨by simp [Joe.Stop, h], fun m => by simp [Joe.Publish, h],
      fun sub => by simp [Joe.Subscribe, h]⟩

/-- C9 witness: on the concrete fresh state the first `Stop` returns Ok and
signals `done`; on the stopped state `Stop`, `Publish` and `Subscribe` all
return Closed without enqueueing. -/
theorem C9_witness :
    Joe.Stop ⟨false, [], []⟩ = (⟨true, [], []⟩, .ok) ∧
    Joe.Stop ⟨true, [], []⟩ = (⟨true, [], []⟩, .closed) ∧
    Joe.Publish ⟨true, [], []⟩ 5 = (⟨true, [], []⟩, .closed) ∧
    Joe.Subscribe ⟨true, [], []⟩ 6 = (⟨true, [], []⟩, .closed) :=
  ⟨C9_stop_idempotent.1 ⟨false, [], []⟩ rfl,
   (C9_stop_idempotent.2.2 ⟨true, [], []⟩ rfl).1,
   (C9_stop_idempotent.2.2 ⟨true, [], []⟩ rfl).2.1 5,
   (C9_stop_idempotent.2.2 ⟨true, [], []⟩ rfl).2.2 6⟩

theorem topicInsert_mem (tp : List (String × List Nat)) (t : String) (ch : Nat) :
    ∀ t2 l2, (t2, l2) ∈ topicInsert tp t ch → ∀ x ∈ l2,
      (∃ l0, (t2, l0) ∈ tp ∧ x ∈ l0) ∨ x = ch := by
  induction tp with
  | nil =>
    intro t2 l2 h x hx
    simp [topicInsert] at h
    rw [h.2] at hx
    right
    simpa using hx
  | cons p rest ih =>
    intro t2 l2 h x hx
    rcases p with ⟨t3, l3⟩
    simp only [topicInsert] at h
    by_cases he : t3 = t
    · rw [if_pos he] at h
      rcases List.mem_cons.mp h with h2 | h2
      · injection h2 with ha hb
        subst hb
        by_cases hm : ch ∈ l3
        · rw [if_pos hm] at hx
          exact Or.inl ⟨l3, by rw [ha]; exact List.mem_cons_self _ _, hx⟩
        · rw [if_neg hm] at hx
          rcases List.mem_append.mp hx with h3 | h3
          · exact Or.inl ⟨l3, by rw [ha]; exact List.mem_cons_self _ _, h3⟩
          · right; simpa using h3
      · exact Or.inl ⟨l2, List.mem_cons_of_mem _ h2, hx⟩
    · rw [if_neg he] at h
      rcases List.mem_cons.mp h with h2 | h2
      · injection h2 with ha hb
        subst hb
        exact Or.inl ⟨l2, by rw [ha]; exact List.mem_cons_self _ _, hx⟩
      · rcases ih t2 l2 h2 x hx with h3 | h3
        · rcases h3 with ⟨l0, hl0, hxl0⟩
          exact Or.inl ⟨l0, List.mem_cons_of_mem _ hl0, hxl0⟩
        · exact Or.inr h3

theorem topicFold_mem (ts : List String) :
    ∀ (tp : List (String × List Nat)) (ch : Nat) t2 l2,
      (t2, l2) ∈ ts.foldl (fun a t => topicInsert a t ch) tp → ∀ x ∈ l2,
        (∃ l0, (t2, l0) ∈ tp ∧ x ∈ l0) ∨ x = ch := by
  induction ts with
  | nil => intro tp ch t2 l2 h x hx; exact Or.inl ⟨l2, h, hx⟩
  | cons t ts ih =>
    intro tp ch t2 l2 h x hx
    simp only [List.foldl_cons] at h
    rcases ih (topicInsert tp t ch) ch t2 l2 h x hx with h2 | h2
    · rcases h2 with ⟨l0, hl0, hxl0⟩
      exact topicInsert_mem tp t ch t2 l0 hl0 x hxl0
    · exact Or.inr h2

theorem loopStep_inv (st : LoopState) (e : JoeEvent) :
    topicsInv st → topicsInv (loopStep st e) := by
  intro hinv
  cases e with
  | message _ => exact hinv
  | gcTick => exact hinv
  | subscribe ch ts =>
    by_cases hm : ch ∈ st.subscribers
    · simpa [loopStep, hm] using hinv
    · intro t l x hl hx
      simp only [loopStep, if_neg hm] at hl ⊢
      rcases topicFold_mem ts st.topics ch t l hl x hx with h2 | h2
      · rcases h2 with ⟨l0, hl0, hxl0⟩
        exact List.mem_append.mpr (Or.inl (hinv t l0 x hl0 hxl0))
      · subst h2
        exact List.mem_append.mpr (Or.inr (by simp))
  | unsubscribe ch =>
    intro t l x hl hx
    simp only [loopStep] at hl ⊢
    rcases List.mem_map.mp hl with ⟨p, hp, heq⟩
    injection heq with h1 h2
    rw [← h2] at hx
    have hx2 := List.mem_filter.mp hx
    have hxp : x ∈ p.2 := hx2.1
    have hxne : (x != ch) = true := hx2.2
    have hsub : x ∈ st.subscribers := hinv p.1 p.2 x hp hxp
    exact List.mem_filter.mpr ⟨hsub, hxne⟩

theorem loopFold_inv (evs : List JoeEvent) :
    ∀ st, topicsInv st → topicsInv (evs.foldl loopStep st) := by
  induction evs with
  | nil => intro st h; exact h
  | cons e evs ih =>
    intro st h
    exact ih _ (loopStep_inv st e h)

/-- C10: event-loop table invariant: starting from the fresh broker tables,
after any sequence of loop iterations every channel registered under any
topic is also a member of `subscribers`; hence the shutdown cleanup, which
closes exactly the members of `subscribers`, closes every channel still
reachable from the topic table. -/
theorem C10_topics_closed (evs : List JoeEvent) (t : String) (l : List Nat) (ch : Nat)
    (h1 : (t, l) ∈ (evs.foldl loopStep initLoopState).topics) (h2 : ch ∈ l) :
    ch ∈ Joe.closeSubscribers (evs.foldl loopStep initLoopState) := by
  have hinv : topicsInv initLoopState := by
    intro t0 l0 ch0 hl hx
    simp [initLoopState] at hl
  exact loopFold_inv evs initLoopState hinv t l ch h1 h2

/-- C10 witness: after a subscription of channel 7 to topic `t1` followed by
a published message, channel 7 is registered under `t1` and the cleanup
closes it. -/
theorem C10_witness :
    (7 : Nat) ∈ Joe.closeSubscribers
      (List.foldl loopStep initLoopState
        [JoeEvent.subscribe 7 ["t1"], JoeEvent.message "t1"]) :=
  C10_topics_closed [.subscribe 7 ["t1"], .message "t1"] "t1" [7] 7 (by decide) (by decide)

/-- C8 witness: the amended no-op theorem applied at a concrete event and a
concrete range anchor. -/
theorem C8_witness :
    Noop.GCReturn = none ∧ Noop.Append ⟨"w", 3⟩ = ⟨"w", 3⟩ ∧
      Noop.Range "w" = .ok [] :=
  ⟨C8_noop_ops.1, C8_noop_ops.2.1 ⟨"w", 3⟩, C8_noop_ops.2.2 "w"⟩
